import Mathlib

/-!
Verification development for the Poseidon duplex sponge
(`src/poseidon/mod.rs`).  The Rust code is shallowly embedded: field
elements are drawn from an arbitrary commutative ring `F` (the Rust code
is generic over a prime field and uses only `+`, `*`, `0` and `pow`);
the sponge state is a `List F`; every operation additionally returns the
list of `SpongeEvent`s it performed (a ghost trace recording each
permutation, each addition into a state slot and each element copied
out), so that claims about *when* the code permutes are statable.
-/

/-- Modelled from the spec: the duplex mode tag, a tagged variant
`Absorbing(next_absorb_index)` / `Squeezing(next_squeeze_index)`
(the Rust type `DuplexSpongeMode` lives in the crate root, outside
`src/poseidon/mod.rs`). -/
inductive DuplexSpongeMode where
  | absorbing (next_absorb_index : ℕ)
  | squeezing (next_squeeze_index : ℕ)
deriving DecidableEq, Repr

/-- Ghost trace events: a permutation, an addition of value `v` into state
slot `slot` (`state[slot] += v`), or a copy of value `v` out of state slot
`slot` into the output. -/
inductive SpongeEvent (F : Type) where
  | perm : SpongeEvent F
  | addElem (slot : ℕ) (v : F) : SpongeEvent F
  | outElem (slot : ℕ) (v : F) : SpongeEvent F
deriving DecidableEq, Repr

/-- Whether an event is a permutation. -/
def SpongeEvent.isPerm {F : Type} : SpongeEvent F → Bool
  | .perm => true
  | _ => false

/-- Whether an event is an addition into the state. -/
def SpongeEvent.isAdd {F : Type} : SpongeEvent F → Bool
  | .addElem _ _ => true
  | _ => false

/-- Whether an event is a copy into the output. -/
def SpongeEvent.isOut {F : Type} : SpongeEvent F → Bool
  | .outElem _ _ => true
  | _ => false

/-- `PoseidonParameters` from `src/poseidon/mod.rs` (lines 23-42): round
counts, S-box exponent `alpha`, round-key matrix `ark`, MDS matrix `mds`,
`rate` and `capacity`. -/
structure PoseidonParameters (F : Type) where
  full_rounds : ℕ
  partial_rounds : ℕ
  alpha : ℕ
  ark : List (List F)
  mds : List (List F)
  rate : ℕ
  capacity : ℕ
deriving DecidableEq, Repr

/-- `PoseidonSponge` from `src/poseidon/mod.rs` (lines 51-60): parameters,
the state vector, and the duplex mode. -/
structure PoseidonSponge (F : Type) where
  parameters : PoseidonParameters F
  state : List F
  mode : DuplexSpongeMode
deriving DecidableEq, Repr

/-- `PoseidonSpongeState` from `src/poseidon/mod.rs` (lines 344-349): a
snapshot of state and mode, without parameters. -/
structure PoseidonSpongeState (F : Type) where
  state : List F
  mode : DuplexSpongeMode
deriving DecidableEq, Repr

section Ops

variable {F : Type} [CommRing F]

/-- `PoseidonSponge::apply_ark` (lines 76-80): `state[i] += ark[round_number][i]`
for every `i`.  Out-of-range indexing (which panics in Rust) is totalised
with default `[]` / `0`. -/
def apply_ark (p : PoseidonParameters F) (state : List F) (round_number : ℕ) : List F :=
  (List.range state.length).map fun i =>
    state.getD i 0 + (p.ark.getD round_number []).getD i 0

/-- `PoseidonSponge::apply_s_box` (lines 63-74): a full round raises every
element to `alpha`; a partial round raises only `state[0]` (on an empty
state Rust would panic; here the empty state is returned unchanged). -/
def apply_s_box (p : PoseidonParameters F) (state : List F) (is_full_round : Bool) : List F :=
  if is_full_round then
    state.map fun x => x ^ p.alpha
  else
    match state with
    | [] => []
    | x :: rest => x ^ p.alpha :: rest

/-- `PoseidonSponge::apply_mds` (lines 82-93): `new_state[i] = Σ_j state[j] * mds[i][j]`,
computed into a scratch vector and copied back; functionally the
matrix-vector product. -/
def apply_mds (p : PoseidonParameters F) (state : List F) : List F :=
  (List.range state.length).map fun i =>
    ((List.range state.length).map fun j =>
      state.getD j 0 * (p.mds.getD i []).getD j 0).sum

/-- `PoseidonSponge::permute` (lines 95-118): `full_rounds / 2` full rounds,
then `partial_rounds` partial rounds, then rounds
`full_rounds / 2 + partial_rounds .. partial_rounds + full_rounds` as full
rounds, each round being ARK, S-box, MDS. -/
def permute (p : PoseidonParameters F) (state : List F) : List F :=
  let full_rounds_over_2 := p.full_rounds / 2
  let st1 := (List.range' 0 full_rounds_over_2).foldl
    (fun st i => apply_mds p (apply_s_box p (apply_ark p st i) true)) state
  let st2 := (List.range' full_rounds_over_2 p.partial_rounds).foldl
    (fun st i => apply_mds p (apply_s_box p (apply_ark p st i) false)) st1
  (List.range' (full_rounds_over_2 + p.partial_rounds)
      (p.partial_rounds + p.full_rounds - (full_rounds_over_2 + p.partial_rounds))).foldl
    (fun st i => apply_mds p (apply_s_box p (apply_ark p st i) true)) st2

/-- `self.permute()` on a sponge: replaces the state, leaves mode and
parameters alone. -/
def permuteSponge (s : PoseidonSponge F) : PoseidonSponge F :=
  { s with state := permute s.parameters s.state }

/-- One Rust statement `state[slot] += v`, totalised: `List.set` is the
identity out of range. -/
def listAddAt (st : List F) (slot : ℕ) (v : F) : List F :=
  st.set slot (st.getD slot 0 + v)

/-- The absorb loop body `state[capacity + i + rate_start_index] += element`
over an enumerated chunk, starting at slot `base`. -/
def addChunk (st : List F) (base : ℕ) (elems : List F) : List F :=
  match elems with
  | [] => st
  | e :: rest => addChunk (listAddAt st base e) (base + 1) rest

/-- The ghost events of `addChunk`. -/
def addEvents (base : ℕ) (elems : List F) : List (SpongeEvent F) :=
  match elems with
  | [] => []
  | e :: rest => .addElem base e :: addEvents (base + 1) rest

/-- The squeeze loop's block read: `n` consecutive state slots starting at
`base` (Rust's `clone_from_slice` from `state[base .. base + n]`). -/
def readChunk (st : List F) (base : ℕ) (n : ℕ) : List F :=
  (List.range n).map fun k => st.getD (base + k) 0

/-- The ghost events of `readChunk`. -/
def outEvents (st : List F) (base : ℕ) (n : ℕ) : List (SpongeEvent F) :=
  (List.range n).map fun k => .outElem (base + k) (st.getD (base + k) 0)

/-- `PoseidonSponge::absorb_internal` (lines 121-150).  Loop: if the
remaining elements fit in the rate from `rate_start_index`, add them at
`capacity + rate_start_index + k` and set the mode; otherwise add
`rate - rate_start_index` elements, permute, and continue at index 0.
The branch `rate ≤ rate_start_index` with elements left over never
terminates in Rust (it absorbs zero elements per iteration); it is
totalised to return the sponge unchanged and is unreachable from the
public API, whose indices stay below `rate` on entry. -/
def absorb_internal (s : PoseidonSponge F) (rate_start_index : ℕ) (elements : List F) :
    PoseidonSponge F × List (SpongeEvent F) :=
  if rate_start_index + elements.length ≤ s.parameters.rate then
    ({ s with
        state := addChunk s.state (s.parameters.capacity + rate_start_index) elements,
        mode := .absorbing (rate_start_index + elements.length) },
      addEvents (s.parameters.capacity + rate_start_index) elements)
  else if s.parameters.rate ≤ rate_start_index then
    (s, [])
  else
    let num_elements_absorbed := s.parameters.rate - rate_start_index
    let chunk := elements.take num_elements_absorbed
    let s1 : PoseidonSponge F :=
      { s with state := addChunk s.state (s.parameters.capacity + rate_start_index) chunk }
    let s2 := permuteSponge s1
    let rest := absorb_internal s2 0 (elements.drop num_elements_absorbed)
    (rest.1,
      addEvents (s.parameters.capacity + rate_start_index) chunk
        ++ SpongeEvent.perm :: rest.2)
termination_by elements.length
decreasing_by
  simp only [List.length_drop]
  omega

/-- `PoseidonSponge::squeeze_internal` (lines 153-182).  Loop: if the
requested `n` output elements fit in the rate from `rate_start_index`,
copy them out and set the mode; otherwise copy `rate - rate_start_index`
elements, permute **unless the whole remaining request equals `rate`**,
and continue at index 0.  As for `absorb_internal`, the divergent
`rate ≤ rate_start_index` corner is totalised to a no-op. -/
def squeeze_internal (s : PoseidonSponge F) (rate_start_index : ℕ) (n : ℕ) :
    List F × PoseidonSponge F × List (SpongeEvent F) :=
  if rate_start_index + n ≤ s.parameters.rate then
    (readChunk s.state (s.parameters.capacity + rate_start_index) n,
      { s with mode := .squeezing (rate_start_index + n) },
      outEvents s.state (s.parameters.capacity + rate_start_index) n)
  else if s.parameters.rate ≤ rate_start_index then
    ([], s, [])
  else
    let num_elements_squeezed := s.parameters.rate - rate_start_index
    let block := readChunk s.state (s.parameters.capacity + rate_start_index)
      num_elements_squeezed
    let s1 := if n ≠ s.parameters.rate then permuteSponge s else s
    let rest := squeeze_internal s1 0 (n - num_elements_squeezed)
    (block ++ rest.1, rest.2.1,
      outEvents s.state (s.parameters.capacity + rate_start_index) num_elements_squeezed
        ++ (if n ≠ s.parameters.rate then [SpongeEvent.perm] else [])
        ++ rest.2.2)
termination_by n
decreasing_by omega

/-- `PoseidonSponge::new` (lines 219-230): all-zero state of width
`rate + capacity`, mode `Absorbing(0)`. -/
def PoseidonSponge.new (p : PoseidonParameters F) : PoseidonSponge F :=
  { parameters := p,
    state := List.replicate (p.rate + p.capacity) 0,
    mode := .absorbing 0 }

/-- `PoseidonSponge::absorb` (lines 232-254), with the input already
converted to its ordered sequence of field elements (the external
`Absorb` contract).  Empty input returns immediately; from
`Absorbing(rate)` or from `Squeezing(_)` the sponge permutes first. -/
def absorb (s : PoseidonSponge F) (elems : List F) :
    PoseidonSponge F × List (SpongeEvent F) :=
  if elems.isEmpty then (s, [])
  else
    match s.mode with
    | .absorbing next_absorb_index =>
      if next_absorb_index = s.parameters.rate then
        let r := absorb_internal (permuteSponge s) 0 elems
        (r.1, SpongeEvent.perm :: r.2)
      else
        absorb_internal s next_absorb_index elems
    | .squeezing _ =>
      let r := absorb_internal (permuteSponge s) 0 elems
      (r.1, SpongeEvent.perm :: r.2)

/-- `PoseidonSponge::squeeze_native_field_elements` (lines 321-341): from
`Absorbing(_)` permute and squeeze from index 0; from `Squeezing(rate)`
permute and restart at 0; otherwise continue at the stored index. -/
def squeeze_native_field_elements (s : PoseidonSponge F) (num_elements : ℕ) :
    List F × PoseidonSponge F × List (SpongeEvent F) :=
  match s.mode with
  | .absorbing _ =>
    let r := squeeze_internal (permuteSponge s) 0 num_elements
    (r.1, r.2.1, SpongeEvent.perm :: r.2.2)
  | .squeezing next_squeeze_index =>
    if next_squeeze_index = s.parameters.rate then
      let r := squeeze_internal (permuteSponge s) 0 num_elements
      (r.1, r.2.1, SpongeEvent.perm :: r.2.2)
    else
      squeeze_internal s next_squeeze_index num_elements

/-- Little-endian bytes of a natural number: the first `k` bytes, as in
`BigInteger::to_bytes_le` truncated to `k`. -/
def bytesLE (m : ℕ) (k : ℕ) : List ℕ :=
  (List.range k).map fun j => m / 256 ^ j % 256

/-- The first `k` little-endian bits of a natural number, as in
`BigInteger::to_bits_le` truncated to `k`. -/
def bitsLE (m : ℕ) (k : ℕ) : List Bool :=
  (List.range k).map fun j => m.testBit j

/-- A byte sequence read as a bit sequence, little-endian within each
byte. -/
def bytesToBitsLE (bytes : List ℕ) : List Bool :=
  bytes.flatMap fun b => (List.range 8).map fun t => b.testBit t

/-- `PoseidonSponge::squeeze_bytes` (lines 256-270).  `cap` stands for the
field constant `F::Params::CAPACITY` and `toNat` for the canonical integer
representative `into_repr` (both live in the external `ark-ff` field
abstraction).  `usable_bytes = cap / 8`; squeeze
`⌈num_bytes / usable_bytes⌉` native elements, keep the low `usable_bytes`
little-endian bytes of each, concatenate and truncate. -/
def squeeze_bytes (cap : ℕ) (toNat : F → ℕ) (s : PoseidonSponge F) (num_bytes : ℕ) :
    List ℕ × PoseidonSponge F × List (SpongeEvent F) :=
  let usable_bytes := cap / 8
  let num_elements := (num_bytes + usable_bytes - 1) / usable_bytes
  let r := squeeze_native_field_elements s num_elements
  ((r.1.flatMap fun e => bytesLE (toNat e) usable_bytes).take num_bytes, r.2.1, r.2.2)

/-- `PoseidonSponge::squeeze_bits` (lines 272-286): as `squeeze_bytes`
with `usable_bits = cap` bits per squeezed element. -/
def squeeze_bits (cap : ℕ) (toNat : F → ℕ) (s : PoseidonSponge F) (num_bits : ℕ) :
    List Bool × PoseidonSponge F × List (SpongeEvent F) :=
  let usable_bits := cap
  let num_elements := (num_bits + usable_bits - 1) / usable_bits
  let r := squeeze_native_field_elements s num_elements
  ((r.1.flatMap fun e => bitsLE (toNat e) usable_bits).take num_bits, r.2.1, r.2.2)

/-- `SpongeExt::from_state` for `PoseidonSponge` (lines 354-359): build a
fresh sponge from the parameters, then overwrite its mode and state with
the snapshot's, verbatim. -/
def from_state (st : PoseidonSpongeState F) (params : PoseidonParameters F) :
    PoseidonSponge F :=
  { PoseidonSponge.new params with mode := st.mode, state := st.state }

/-- `SpongeExt::into_state` (lines 361-366). -/
def into_state (s : PoseidonSponge F) : PoseidonSpongeState F :=
  { state := s.state, mode := s.mode }

/-! Spec-side definitions, written from the specification's own wording of
the permutation (section 4.2), to be compared with the source-side
`permute`: ARK is elementwise addition of the round-constant row, the full
S-box maps every element, the partial S-box touches only `state[0]`, and
MDS is the matrix-vector product `mds · state`. -/

/-- Spec's ARK(r): for each `i`, `state[i] += ark[r][i]`. -/
def specArk (p : PoseidonParameters F) (r : ℕ) (st : List F) : List F :=
  List.zipWith (· + ·) st (p.ark.getD r [])

/-- Spec's full S-box: every element to the power `α`. -/
def specFullSBox (p : PoseidonParameters F) (st : List F) : List F :=
  st.map fun x => x ^ p.alpha

/-- Spec's partial S-box: `state[0] ← state[0]^α`, all other elements
unchanged. -/
def specPartialSBox (p : PoseidonParameters F) (st : List F) : List F :=
  st.set 0 (st.getD 0 0 ^ p.alpha)

/-- Spec's MDS: `state ← mds · state`, row `i` becoming the dot product of
`mds[i]` with the state. -/
def specMds (p : PoseidonParameters F) (st : List F) : List F :=
  p.mds.map fun row => (List.zipWith (· * ·) row st).sum

/-- A spec full round `r`: ARK(r), full S-box, MDS. -/
def specFullRound (p : PoseidonParameters F) (r : ℕ) (st : List F) : List F :=
  specMds p (specFullSBox p (specArk p r st))

/-- A spec partial round `r`: ARK(r), partial S-box, MDS. -/
def specPartialRound (p : PoseidonParameters F) (r : ℕ) (st : List F) : List F :=
  specMds p (specPartialSBox p (specArk p r st))

/-- The spec's round schedule (section 4.2): with `h = full_rounds / 2`,
full rounds `0 .. h`, partial rounds `h .. h + partial_rounds`, then the
remaining `h` round indices as full rounds. -/
def specPermute (p : PoseidonParameters F) (st : List F) : List F :=
  let h := p.full_rounds / 2
  let st1 := (List.range' 0 h).foldl (fun st r => specFullRound p r st) st
  let st2 := (List.range' h p.partial_rounds).foldl
    (fun st r => specPartialRound p r st) st1
  (List.range' (h + p.partial_rounds) h).foldl (fun st r => specFullRound p r st) st2

end Ops

/-! Concrete instances used by witnesses and counterexamples.  `zeroRoundParams`
has no rounds at all (`full_rounds = 0` is even, and `PoseidonParameters::new`
accepts the matching `0 × w` round-key matrix), so its permutation is the
identity and traces are easy to evaluate; `smallParams` has a genuine
2-full / 1-partial / 2-wide schedule over `ℤ`. -/

/-- Round-free parameters over a ring: rate 2, capacity 1, valid shapes. -/
def zeroRoundParams (F : Type) [CommRing F] : PoseidonParameters F :=
  { full_rounds := 0, partial_rounds := 0, alpha := 5,
    ark := [], mds := [[0, 0, 0], [0, 0, 0], [0, 0, 0]], rate := 2, capacity := 1 }

/-- A sponge over `ℤ` with the round-free parameters, state `[9, 4, 7]`,
mode `Absorbing(0)`. -/
def intSponge : PoseidonSponge ℤ :=
  { parameters := zeroRoundParams ℤ, state := [9, 4, 7], mode := .absorbing 0 }

/-- Parameters over `ℤ` with a real schedule: 2 full rounds, 1 partial
round, width 2, exponent 3, shapes matching. -/
def smallParams : PoseidonParameters ℤ :=
  { full_rounds := 2, partial_rounds := 1, alpha := 3,
    ark := [[1, 2], [3, 4], [5, 6]], mds := [[1, 1], [1, 0]], rate := 1, capacity := 1 }

/-- A sponge over the prime field `ZMod 521` (10-bit modulus, so the field
capacity `⌊log₂ 521⌋ = 9` bits is not a multiple of 8) with the round-free
parameters; the rate region holds `256` and `0`. -/
def zmodSponge : PoseidonSponge (ZMod 521) :=
  { parameters := zeroRoundParams (ZMod 521), state := [0, 256, 0], mode := .absorbing 0 }

/-- `intSponge` mid-way through a squeeze: mode `Squeezing(1)`. -/
def midSponge : PoseidonSponge ℤ :=
  { intSponge with mode := .squeezing 1 }

/-- `intSponge` in squeezing mode at index 0 (for the absorb-after-squeeze
half of C3). -/
def sqSponge : PoseidonSponge ℤ :=
  { intSponge with mode := .squeezing 0 }

set_option linter.unusedSectionVars false

section ProofsPermute

variable {F : Type} [CommRing F]

/-- Index-and-default access agrees with `zipWith` on equal-length lists. -/
theorem range_map_getD_zipWith (f : F → F → F) (d : F) :
    ∀ (l1 l2 : List F), l1.length = l2.length →
      (List.range l1.length).map (fun i => f (l1.getD i d) (l2.getD i d)) =
        List.zipWith f l1 l2 := by
  intro l1
  induction l1 with
  | nil => intro l2 h; simp
  | cons a t ih =>
    intro l2 h
    cases l2 with
    | nil => simp at h
    | cons b u =>
      rw [List.length_cons, List.range_succ_eq_map, List.map_cons, List.map_map]
      simp only [List.getD_cons_zero, List.zipWith_cons_cons, Function.comp_def,
        List.getD_cons_succ]
      rw [ih u (by simpa using h)]

/-- Mapping over indices with a default agrees with mapping over the list. -/
theorem range_map_getD_map {α β : Type} (g : α → β) (d : α) :
    ∀ (l : List α),
      (List.range l.length).map (fun i => g (l.getD i d)) = l.map g := by
  intro l
  induction l with
  | nil => simp
  | cons a t ih =>
    rw [List.length_cons, List.range_succ_eq_map, List.map_cons, List.map_map]
    simp only [List.getD_cons_zero, Function.comp_def, List.getD_cons_succ]
    rw [ih]
    simp

theorem apply_ark_eq_spec (p : PoseidonParameters F) (st : List F) (r : ℕ)
    (h : (p.ark.getD r []).length = st.length) :
    apply_ark p st r = specArk p r st :=
  range_map_getD_zipWith (· + ·) 0 st _ h.symm

theorem apply_s_box_full_eq (p : PoseidonParameters F) (st : List F) :
    apply_s_box p st true = specFullSBox p st := rfl

theorem apply_s_box_partial_eq (p : PoseidonParameters F) (st : List F) :
    apply_s_box p st false = specPartialSBox p st := by
  cases st <;> simp [apply_s_box, specPartialSBox]

theorem apply_mds_eq_spec (p : PoseidonParameters F) (st : List F)
    (h1 : p.mds.length = st.length)
    (h2 : ∀ row ∈ p.mds, row.length = st.length) :
    apply_mds p st = specMds p st := by
  unfold apply_mds specMds
  have key : ∀ i ∈ List.range st.length,
      ((List.range st.length).map fun j =>
        st.getD j 0 * (p.mds.getD i []).getD j 0).sum
        = (List.zipWith (· * ·) (p.mds.getD i []) st).sum := by
    intro i hi
    rw [List.mem_range] at hi
    have hrow : (p.mds.getD i []).length = st.length := by
      apply h2
      rw [List.getD_eq_getElem _ _ (h1 ▸ hi)]
      exact List.getElem_mem _
    rw [range_map_getD_zipWith (· * ·) 0 st _ hrow.symm,
      List.zipWith_comm_of_comm _ mul_comm]
  rw [List.map_congr_left key]
  conv_lhs => rw [← h1]
  exact range_map_getD_map (fun row => (List.zipWith (· * ·) row st).sum) [] p.mds

theorem apply_ark_length (p : PoseidonParameters F) (st : List F) (r : ℕ) :
    (apply_ark p st r).length = st.length := by
  simp [apply_ark]

theorem apply_s_box_length (p : PoseidonParameters F) (st : List F) (b : Bool) :
    (apply_s_box p st b).length = st.length := by
  cases b <;> cases st <;> simp [apply_s_box]

theorem apply_mds_length (p : PoseidonParameters F) (st : List F) :
    (apply_mds p st).length = st.length := by
  simp [apply_mds]

/-- `foldl` congruence under an invariant preserved by the left step
function. -/
theorem foldl_congr_invariant {α : Type} (P : α → Prop) (f g : α → ℕ → α) :
    ∀ (l : List ℕ) (a : α), P a →
      (∀ x r, P x → r ∈ l → f x r = g x r) →
      (∀ x r, P x → r ∈ l → P (f x r)) →
      l.foldl f a = l.foldl g a ∧ P (l.foldl f a) := by
  intro l
  induction l with
  | nil => intro a ha _ _; exact ⟨rfl, ha⟩
  | cons r t ih =>
    intro a ha hfg hP
    have h1 : f a r = g a r := hfg a r ha (List.mem_cons_self r t)
    have h2 : P (f a r) := hP a r ha (List.mem_cons_self r t)
    have h3 := ih (f a r) h2
      (fun x s hx hs => hfg x s hx (List.mem_cons_of_mem _ hs))
      (fun x s hx hs => hP x s hx (List.mem_cons_of_mem _ hs))
    refine ⟨?_, h3.2⟩
    simp only [List.foldl_cons]
    rw [h3.1, h1]

theorem full_round_step_eq (p : PoseidonParameters F) (st : List F) (r : ℕ)
    (hr : r < p.ark.length)
    (harkrow : ∀ row ∈ p.ark, row.length = p.rate + p.capacity)
    (hmds : p.mds.length = p.rate + p.capacity)
    (hmdsrow : ∀ row ∈ p.mds, row.length = p.rate + p.capacity)
    (hst : st.length = p.rate + p.capacity) :
    apply_mds p (apply_s_box p (apply_ark p st r) true) = specFullRound p r st := by
  have hrow : (p.ark.getD r []).length = st.length := by
    rw [hst]
    apply harkrow
    rw [List.getD_eq_getElem _ _ hr]
    exact List.getElem_mem _
  have hX : (specFullSBox p (specArk p r st)).length = p.rate + p.capacity := by
    simp only [specFullSBox, List.length_map, specArk, List.length_zipWith, hrow,
      min_self, hst]
  rw [apply_ark_eq_spec p st r hrow, apply_s_box_full_eq]
  unfold specFullRound
  exact apply_mds_eq_spec p _ (by rw [hX, hmds]) (fun row hm => by
    rw [hX]; exact hmdsrow row hm)

theorem partial_round_step_eq (p : PoseidonParameters F) (st : List F) (r : ℕ)
    (hr : r < p.ark.length)
    (harkrow : ∀ row ∈ p.ark, row.length = p.rate + p.capacity)
    (hmds : p.mds.length = p.rate + p.capacity)
    (hmdsrow : ∀ row ∈ p.mds, row.length = p.rate + p.capacity)
    (hst : st.length = p.rate + p.capacity) :
    apply_mds p (apply_s_box p (apply_ark p st r) false) = specPartialRound p r st := by
  have hrow : (p.ark.getD r []).length = st.length := by
    rw [hst]
    apply harkrow
    rw [List.getD_eq_getElem _ _ hr]
    exact List.getElem_mem _
  have hX : (specPartialSBox p (specArk p r st)).length = p.rate + p.capacity := by
    simp only [specPartialSBox, List.length_set, specArk, List.length_zipWith, hrow,
      min_self, hst]
  rw [apply_ark_eq_spec p st r hrow, apply_s_box_partial_eq]
  unfold specPartialRound
  exact apply_mds_eq_spec p _ (by rw [hX, hmds]) (fun row hm => by
    rw [hX]; exact hmdsrow row hm)

theorem fold_full_rounds_eq (p : PoseidonParameters F) (l : List ℕ) (st : List F)
    (hl : ∀ r ∈ l, r < p.ark.length)
    (harkrow : ∀ row ∈ p.ark, row.length = p.rate + p.capacity)
    (hmds : p.mds.length = p.rate + p.capacity)
    (hmdsrow : ∀ row ∈ p.mds, row.length = p.rate + p.capacity)
    (hst : st.length = p.rate + p.capacity) :
    l.foldl (fun st i => apply_mds p (apply_s_box p (apply_ark p st i) true)) st =
      l.foldl (fun st r => specFullRound p r st) st ∧
    (l.foldl (fun st i =>
      apply_mds p (apply_s_box p (apply_ark p st i) true)) st).length =
      p.rate + p.capacity :=
  foldl_congr_invariant (fun x => x.length = p.rate + p.capacity) _ _ l st hst
    (fun x r hx hr => full_round_step_eq p x r (hl r hr) harkrow hmds hmdsrow hx)
    (fun x r hx _ => by
      show (apply_mds p (apply_s_box p (apply_ark p x r) true)).length = _
      rw [apply_mds_length, apply_s_box_length, apply_ark_length]; exact hx)

theorem fold_partial_rounds_eq (p : PoseidonParameters F) (l : List ℕ) (st : List F)
    (hl : ∀ r ∈ l, r < p.ark.length)
    (harkrow : ∀ row ∈ p.ark, row.length = p.rate + p.capacity)
    (hmds : p.mds.length = p.rate + p.capacity)
    (hmdsrow : ∀ row ∈ p.mds, row.length = p.rate + p.capacity)
    (hst : st.length = p.rate + p.capacity) :
    l.foldl (fun st i => apply_mds p (apply_s_box p (apply_ark p st i) false)) st =
      l.foldl (fun st r => specPartialRound p r st) st ∧
    (l.foldl (fun st i =>
      apply_mds p (apply_s_box p (apply_ark p st i) false)) st).length =
      p.rate + p.capacity :=
  foldl_congr_invariant (fun x => x.length = p.rate + p.capacity) _ _ l st hst
    (fun x r hx hr => partial_round_step_eq p x r (hl r hr) harkrow hmds hmdsrow hx)
    (fun x r hx _ => by
      show (apply_mds p (apply_s_box p (apply_ark p x r) false)).length = _
      rw [apply_mds_length, apply_s_box_length, apply_ark_length]; exact hx)

/-- C1: for parameters with even `full_rounds` and matching shapes,
`permute` realises exactly the spec's round schedule on a width-`w` state:
`full_rounds / 2` full rounds (ARK(r), full S-box, MDS), then
`partial_rounds` partial rounds (ARK(r), S-box on `state[0]` only, MDS),
then the remaining `full_rounds / 2` round indices as full rounds, in that
order. -/
theorem permute_follows_spec_schedule (p : PoseidonParameters F) (st : List F)
    (heven : p.full_rounds % 2 = 0)
    (hark : p.ark.length = p.full_rounds + p.partial_rounds)
    (harkrow : ∀ row ∈ p.ark, row.length = p.rate + p.capacity)
    (hmds : p.mds.length = p.rate + p.capacity)
    (hmdsrow : ∀ row ∈ p.mds, row.length = p.rate + p.capacity)
    (hst : st.length = p.rate + p.capacity) :
    permute p st = specPermute p st := by
  simp only [permute, specPermute]
  have hcount : p.partial_rounds + p.full_rounds
      - (p.full_rounds / 2 + p.partial_rounds) = p.full_rounds / 2 := by omega
  rw [hcount]
  have h1 := fold_full_rounds_eq p (List.range' 0 (p.full_rounds / 2)) st
    (fun r hr => by rw [hark]; rw [List.mem_range'_1] at hr; omega)
    harkrow hmds hmdsrow hst
  rw [h1.1]
  have h2 := fold_partial_rounds_eq p (List.range' (p.full_rounds / 2) p.partial_rounds)
    ((List.range' 0 (p.full_rounds / 2)).foldl (fun st r => specFullRound p r st) st)
    (fun r hr => by rw [hark]; rw [List.mem_range'_1] at hr; omega)
    harkrow hmds hmdsrow (h1.1 ▸ h1.2)
  rw [h2.1]
  have h3 := fold_full_rounds_eq p
    (List.range' (p.full_rounds / 2 + p.partial_rounds) (p.full_rounds / 2))
    ((List.range' (p.full_rounds / 2) p.partial_rounds).foldl
      (fun st r => specPartialRound p r st)
      ((List.range' 0 (p.full_rounds / 2)).foldl (fun st r => specFullRound p r st) st))
    (fun r hr => by rw [hark]; rw [List.mem_range'_1] at hr; omega)
    harkrow hmds hmdsrow (h2.1 ▸ h2.2)
  rw [h3.1]

/-- Witness for C1: `smallParams` (2 full rounds, 1 partial round, width 2
over `ℤ`) satisfies every hypothesis, and the schedule equality follows at
state `[7, 9]`. -/
theorem permute_follows_spec_schedule_witness :
    smallParams.full_rounds % 2 = 0 ∧
    smallParams.ark.length = smallParams.full_rounds + smallParams.partial_rounds ∧
    (∀ row ∈ smallParams.ark,
      row.length = smallParams.rate + smallParams.capacity) ∧
    smallParams.mds.length = smallParams.rate + smallParams.capacity ∧
    (∀ row ∈ smallParams.mds,
      row.length = smallParams.rate + smallParams.capacity) ∧
    ([(7 : ℤ), 9].length = smallParams.rate + smallParams.capacity) ∧
    permute smallParams [(7 : ℤ), 9] = specPermute smallParams [(7 : ℤ), 9] :=
  ⟨by decide, by decide, by decide, by decide, by decide, by decide,
    permute_follows_spec_schedule smallParams [(7 : ℤ), 9] (by decide) (by decide)
      (by decide) (by decide) (by decide) (by decide)⟩

end ProofsPermute

section ProofsSponge

variable {F : Type} [CommRing F]

/-- C8: absorbing an empty field-element sequence returns immediately, in
every mode: the sponge (state and mode) is unchanged and the trace is
empty, so no permutation is performed. -/
theorem absorb_empty_noop (s : PoseidonSponge F) : absorb s ([] : List F) = (s, []) := by
  simp [absorb]

/-- C6 counterexample: `from_state` does not fail on a width mismatch.
`smallParams` has `rate + capacity = 2`, yet a snapshot whose state vector
has length 1 is accepted and installed verbatim. -/
theorem from_state_mismatched_width_accepted :
    from_state { state := [(5 : ℤ)], mode := .absorbing 0 } smallParams =
      { parameters := smallParams, state := [(5 : ℤ)], mode := .absorbing 0 } ∧
    smallParams.rate + smallParams.capacity = 2 ∧
    ([(5 : ℤ)] : List ℤ).length ≠ 2 :=
  ⟨rfl, rfl, by decide⟩

/-- C6 amended: `from_state` performs no width check at all — for every
snapshot and every parameters object it succeeds, installing the
snapshot's state vector and mode verbatim (a fresh all-zero sponge is
built first and then overwritten). -/
theorem from_state_installs_snapshot_verbatim (st : PoseidonSpongeState F)
    (p : PoseidonParameters F) :
    from_state st p = { parameters := p, state := st.state, mode := st.mode } := rfl

/-- C9 counterexample: a zero-length squeeze does not short-circuit.  On
`intSponge` (mode `Absorbing(0)`), `squeeze_native_field_elements 0`
changes the mode (to `Squeezing(0)`), refuting "leaves the sponge's state
vector and mode unchanged". -/
theorem squeeze_zero_changes_mode_cex :
    (squeeze_native_field_elements intSponge 0).2.1.mode ≠ intSponge.mode := by
  have h : (squeeze_native_field_elements intSponge 0).2.1.mode
      = DuplexSpongeMode.squeezing 0 := by
    simp [squeeze_native_field_elements, intSponge, squeeze_internal, zeroRoundParams]
  rw [h]
  simp [intSponge]

/-- C9 amended: `squeeze_native_field_elements 0` always returns the empty
output, but it only leaves the sponge untouched when the mode is
`Squeezing(i)` with `i ≠ rate`; from `Absorbing(_)` or `Squeezing(rate)`
it performs exactly one permutation and sets the mode to `Squeezing(0)`. -/
theorem squeeze_zero_characterization (s : PoseidonSponge F) :
    squeeze_native_field_elements s 0 =
      match s.mode with
      | .absorbing _ =>
          ([], { permuteSponge s with mode := .squeezing 0 }, [SpongeEvent.perm])
      | .squeezing i =>
          if i = s.parameters.rate then
            ([], { permuteSponge s with mode := .squeezing 0 }, [SpongeEvent.perm])
          else ([], s, []) := by
  obtain ⟨p, st, m⟩ := s
  cases m with
  | absorbing i =>
    simp only [squeeze_native_field_elements]
    rw [squeeze_internal]
    split
    next h2 => simp [readChunk, outEvents, permuteSponge]
    next h2 => simp at h2
  | squeezing i =>
    simp only [squeeze_native_field_elements]
    by_cases h : i = p.rate
    · simp only [h, if_pos rfl]
      rw [squeeze_internal]
      split
      next h2 => simp [readChunk, outEvents, permuteSponge]
      next h2 => simp at h2
    · simp only [if_neg h]
      rw [squeeze_internal]
      split
      next h2 => simp [readChunk, outEvents]
      next h2 =>
        split
        next h3 => rfl
        next h3 => omega

/-- C10: from mode `Squeezing(i)` with `0 < i < rate`, squeezing exactly
`rate` elements performs no permutation: the output is the state slots
`[capacity + i, capacity + rate)` followed by `[capacity, capacity + i)`
(the latter re-reads slots an earlier squeeze already emitted, the state
being unchanged since then), and the sponge ends unchanged, again in mode
`Squeezing(i)`. -/
theorem squeeze_rate_mid_stream (s : PoseidonSponge F) (i : ℕ)
    (hm : s.mode = .squeezing i) (h0 : 0 < i) (hi : i < s.parameters.rate) :
    squeeze_native_field_elements s s.parameters.rate =
      (readChunk s.state (s.parameters.capacity + i) (s.parameters.rate - i)
          ++ readChunk s.state s.parameters.capacity i,
        s,
        outEvents s.state (s.parameters.capacity + i) (s.parameters.rate - i)
          ++ outEvents s.state s.parameters.capacity i) := by
  obtain ⟨p, st, m⟩ := s
  simp only at hm hi ⊢
  subst hm
  simp only [squeeze_native_field_elements]
  rw [if_neg (by omega : ¬ i = p.rate)]
  rw [squeeze_internal]
  dsimp only
  split
  next h2 => omega
  next h2 =>
    split
    next h3 => omega
    next h3 =>
      simp only [ne_eq, not_true_eq_false, if_neg, ite_self, if_false]
      have hsub : p.rate - (p.rate - i) = i := by omega
      rw [hsub]
      rw [squeeze_internal]
      dsimp only
      split
      next h4 =>
        simp
      next h4 => omega

/-- Witness for C10: `midSponge` (round-free parameters, rate 2, mode
`Squeezing(1)`) satisfies the hypotheses and the conclusion follows. -/
theorem squeeze_rate_mid_stream_witness :
    midSponge.mode = .squeezing 1 ∧ 0 < 1 ∧ 1 < midSponge.parameters.rate ∧
    squeeze_native_field_elements midSponge midSponge.parameters.rate =
      (readChunk midSponge.state (midSponge.parameters.capacity + 1)
          (midSponge.parameters.rate - 1)
        ++ readChunk midSponge.state midSponge.parameters.capacity 1,
       midSponge,
       outEvents midSponge.state (midSponge.parameters.capacity + 1)
          (midSponge.parameters.rate - 1)
        ++ outEvents midSponge.state midSponge.parameters.capacity 1) :=
  ⟨rfl, by decide, by decide,
    squeeze_rate_mid_stream midSponge 1 rfl (by decide) (by decide)⟩

/-- C2: inside one squeeze call, at a rate boundary (the request does not
fit in the remaining rate slots), `squeeze_internal` emits the block of
`rate - rate_start_index` slots and then inserts a permutation between it
and the next emitted block **iff** the output length still remaining —
`n`, which includes the block just copied — differs from `rate`; when
`n = rate` the permutation is skipped and the recursion continues on the
unpermuted sponge. -/
theorem squeeze_internal_boundary_perm_iff (s : PoseidonSponge F) (rs n : ℕ)
    (h1 : rs < s.parameters.rate) (h2 : s.parameters.rate < rs + n) :
    squeeze_internal s rs n =
      (readChunk s.state (s.parameters.capacity + rs) (s.parameters.rate - rs)
          ++ (squeeze_internal (if n = s.parameters.rate then s else permuteSponge s) 0
              (n - (s.parameters.rate - rs))).1,
        (squeeze_internal (if n = s.parameters.rate then s else permuteSponge s) 0
          (n - (s.parameters.rate - rs))).2.1,
        outEvents s.state (s.parameters.capacity + rs) (s.parameters.rate - rs)
          ++ (if n = s.parameters.rate then [] else [SpongeEvent.perm])
          ++ (squeeze_internal (if n = s.parameters.rate then s else permuteSponge s) 0
              (n - (s.parameters.rate - rs))).2.2) := by
  rw [squeeze_internal]
  rw [if_neg (by omega), if_neg (by omega)]
  simp only [ite_not]

/-- Witness for C2: `intSponge` (rate 2) with `rate_start_index = 1` and a
remaining request of 2 elements crosses the boundary; the hypotheses hold
and the characterisation follows. -/
theorem squeeze_internal_boundary_perm_iff_witness :
    1 < intSponge.parameters.rate ∧ intSponge.parameters.rate < 1 + 2 ∧
    squeeze_internal intSponge 1 2 =
      (readChunk intSponge.state (intSponge.parameters.capacity + 1)
          (intSponge.parameters.rate - 1)
          ++ (squeeze_internal
              (if 2 = intSponge.parameters.rate then intSponge
                else permuteSponge intSponge) 0
              (2 - (intSponge.parameters.rate - 1))).1,
        (squeeze_internal
          (if 2 = intSponge.parameters.rate then intSponge
            else permuteSponge intSponge) 0
          (2 - (intSponge.parameters.rate - 1))).2.1,
        outEvents intSponge.state (intSponge.parameters.capacity + 1)
          (intSponge.parameters.rate - 1)
          ++ (if 2 = intSponge.parameters.rate then [] else [SpongeEvent.perm])
          ++ (squeeze_internal
              (if 2 = intSponge.parameters.rate then intSponge
                else permuteSponge intSponge) 0
              (2 - (intSponge.parameters.rate - 1))).2.2) :=
  ⟨by decide, by decide,
    squeeze_internal_boundary_perm_iff intSponge 1 2 (by decide) (by decide)⟩

theorem permuteSponge_parameters (s : PoseidonSponge F) :
    (permuteSponge s).parameters = s.parameters := rfl

theorem outEvents_pos_head (st : List F) (b n : ℕ) (h : 0 < n) :
    ∃ rest, outEvents st b n =
      SpongeEvent.outElem b (st.getD b 0) :: rest := by
  obtain ⟨m, rfl⟩ : ∃ m, n = m + 1 := ⟨n - 1, by omega⟩
  refine ⟨(List.range m).map fun k =>
    .outElem (b + (k + 1)) (st.getD (b + (k + 1)) 0), ?_⟩
  unfold outEvents
  rw [List.range_succ_eq_map, List.map_cons, List.map_map]
  simp [Function.comp_def, Nat.add_comm 1]

/-- The first event of `squeeze_internal` is the copy of slot
`capacity + rate_start_index` whenever output is requested and the start
index is below `rate`. -/
theorem squeeze_internal_trace_head (s : PoseidonSponge F) (rs n : ℕ)
    (hn : 0 < n) (hrs : rs < s.parameters.rate) :
    ∃ rest, (squeeze_internal s rs n).2.2 =
      SpongeEvent.outElem (s.parameters.capacity + rs)
        (s.state.getD (s.parameters.capacity + rs) 0) :: rest := by
  rw [squeeze_internal]
  split
  next h1 =>
    exact outEvents_pos_head s.state _ n hn
  next h1 =>
    split
    next h2 => omega
    next h2 =>
      obtain ⟨rest, hr⟩ := outEvents_pos_head s.state
        (s.parameters.capacity + rs) (s.parameters.rate - rs) (by omega)
      dsimp only
      simp only [hr, List.cons_append]
      exact ⟨_, rfl⟩

/-- The first event of `absorb_internal` is the addition of the first
input element at slot `capacity + rate_start_index`, whenever the input is
non-empty and the start index is below `rate`. -/
theorem absorb_internal_trace_head (s : PoseidonSponge F) (rs : ℕ) (elems : List F)
    (he : elems ≠ []) (hrs : rs < s.parameters.rate) :
    ∃ rest, (absorb_internal s rs elems).2 =
      SpongeEvent.addElem (s.parameters.capacity + rs) (elems.headD 0) :: rest := by
  obtain ⟨e, t, rfl⟩ : ∃ e t, elems = e :: t := by
    cases elems with
    | nil => exact absurd rfl he
    | cons e t => exact ⟨e, t, rfl⟩
  rw [absorb_internal]
  split
  next h1 =>
    exact ⟨_, rfl⟩
  next h1 =>
    split
    next h2 => omega
    next h2 =>
      dsimp only
      have htake : (e :: t).take (s.parameters.rate - rs)
          = e :: t.take (s.parameters.rate - rs - 1) := by
        obtain ⟨m, hm⟩ : ∃ m, s.parameters.rate - rs = m + 1 :=
          ⟨s.parameters.rate - rs - 1, by omega⟩
        rw [hm, List.take_cons]
        simp [hm]
      simp only [htake]
      exact ⟨_, rfl⟩

/-- C3: a squeeze issued in `Absorbing(_)` mode (any index) performs
exactly one permutation before any output element is copied out, and an
absorb issued in `Squeezing(_)` mode (any index) performs exactly one
permutation before any input element is added into the state: in each
trace, the events preceding the first output-copy (resp. first addition)
are exactly `[perm]`. -/
theorem mode_switch_single_perm (s t : PoseidonSponge F) (i j n : ℕ)
    (elems : List F)
    (hs : s.mode = .absorbing i) (hrs : 0 < s.parameters.rate) (hn : 0 < n)
    (ht : t.mode = .squeezing j) (hrt : 0 < t.parameters.rate)
    (helems : elems ≠ []) :
    (squeeze_native_field_elements s n).2.2.takeWhile (fun e => ! e.isOut)
        = [SpongeEvent.perm] ∧
    (absorb t elems).2.takeWhile (fun e => ! e.isAdd) = [SpongeEvent.perm] := by
  constructor
  · simp only [squeeze_native_field_elements, hs]
    obtain ⟨rest, hr⟩ := squeeze_internal_trace_head (permuteSponge s) 0 n hn
      (by rw [permuteSponge_parameters]; omega)
    rw [hr]
    simp [List.takeWhile_cons, SpongeEvent.isOut, SpongeEvent.isPerm]
  · simp only [absorb, ht]
    rw [if_neg (by simp [helems])]
    obtain ⟨rest, hr⟩ := absorb_internal_trace_head (permuteSponge t) 0 elems helems
      (by rw [permuteSponge_parameters]; omega)
    rw [hr]
    simp [List.takeWhile_cons, SpongeEvent.isAdd, SpongeEvent.isPerm]

/-- Witness for C3: `intSponge` in `Absorbing(0)` squeezed for one
element, and `sqSponge` in `Squeezing(0)` absorbing `[3]`. -/
theorem mode_switch_single_perm_witness :
    intSponge.mode = .absorbing 0 ∧ 0 < intSponge.parameters.rate ∧ 0 < 1 ∧
    sqSponge.mode = .squeezing 0 ∧ 0 < sqSponge.parameters.rate ∧
    ([(3 : ℤ)] : List ℤ) ≠ [] ∧
    ((squeeze_native_field_elements intSponge 1).2.2.takeWhile (fun e => ! e.isOut)
        = [SpongeEvent.perm] ∧
      (absorb sqSponge [(3 : ℤ)]).2.takeWhile (fun e => ! e.isAdd)
        = [SpongeEvent.perm]) :=
  ⟨rfl, by decide, by decide, rfl, by decide, by decide,
    mode_switch_single_perm intSponge sqSponge 0 0 1 [(3 : ℤ)] rfl (by decide)
      (by decide) rfl (by decide) (by decide)⟩

theorem addEvents_slot_bounds :
    ∀ (elems : List F) (b slot : ℕ) (v : F),
      SpongeEvent.addElem slot v ∈ addEvents b elems →
        b ≤ slot ∧ slot < b + elems.length := by
  intro elems
  induction elems with
  | nil => intro b slot v h; simp [addEvents] at h
  | cons e t ih =>
    intro b slot v h
    rw [addEvents] at h
    rcases List.mem_cons.mp h with h | h
    · injection h with h1 h2
      subst h1
      simp only [List.length_cons]
      omega
    · have := ih (b + 1) slot v h
      simp only [List.length_cons]
      omega

theorem outEvents_slot_bounds (st : List F) (b n slot : ℕ) (v : F) :
    SpongeEvent.outElem slot v ∈ outEvents st b n → b ≤ slot ∧ slot < b + n := by
  intro h
  simp only [outEvents, List.mem_map, List.mem_range] at h
  obtain ⟨k, hk, he⟩ := h
  injection he with h1 h2
  omega

theorem absorb_internal_adds_in_rate (s₀ : PoseidonSponge F) (rs₀ : ℕ)
    (elems₀ : List F) :
    ∀ slot v, SpongeEvent.addElem slot v ∈ (absorb_internal s₀ rs₀ elems₀).2 →
      s₀.parameters.capacity ≤ slot ∧
        slot < s₀.parameters.capacity + s₀.parameters.rate := by
  induction s₀, rs₀, elems₀ using absorb_internal.induct with
  | case1 s rs elems h1 =>
    intro slot v hmem
    rw [absorb_internal, if_pos h1] at hmem
    have := addEvents_slot_bounds elems _ slot v hmem
    omega
  | case2 s rs elems h1 h2 =>
    intro slot v hmem
    rw [absorb_internal, if_neg h1, if_pos h2] at hmem
    simp at hmem
  | case3 s rs elems h1 h2 num chunk s1 s2 ih =>
    intro slot v hmem
    rw [absorb_internal, if_neg h1, if_neg h2] at hmem
    dsimp only at hmem ih
    rcases List.mem_append.mp hmem with hmem | hmem
    · have hb := addEvents_slot_bounds _ _ slot v hmem
      have hlen : (elems.take (s.parameters.rate - rs)).length
          ≤ s.parameters.rate - rs := by
        simp [List.length_take]
      omega
    · rcases List.mem_cons.mp hmem with h | h
      · exact absurd h (by simp)
      · exact ih slot v h

theorem squeeze_internal_outs_in_rate (s₀ : PoseidonSponge F) (rs₀ n₀ : ℕ) :
    ∀ slot v, SpongeEvent.outElem slot v ∈ (squeeze_internal s₀ rs₀ n₀).2.2 →
      s₀.parameters.capacity ≤ slot ∧
        slot < s₀.parameters.capacity + s₀.parameters.rate := by
  induction s₀, rs₀, n₀ using squeeze_internal.induct with
  | case1 s rs n h1 =>
    intro slot v hmem
    rw [squeeze_internal, if_pos h1] at hmem
    have := outEvents_slot_bounds s.state _ n slot v hmem
    omega
  | case2 s rs n h1 h2 =>
    intro slot v hmem
    rw [squeeze_internal, if_neg h1, if_pos h2] at hmem
    simp at hmem
  | case3 s rs n h1 h2 num s1 ih =>
    intro slot v hmem
    rw [squeeze_internal, if_neg h1, if_neg h2] at hmem
    dsimp only at hmem ih
    simp only [List.mem_append] at hmem
    rcases hmem with (hmem | hmem) | hmem
    · have := outEvents_slot_bounds s.state _ _ slot v hmem
      omega
    · split at hmem <;> simp at hmem
    · have hthis := ih slot v hmem
      have hpar : s1.parameters = s.parameters := by
        unfold s1
        split <;> rfl
      rw [hpar] at hthis
      exact hthis

theorem isPerm_perm : (SpongeEvent.perm : SpongeEvent F).isPerm = true := rfl

theorem isPerm_outElem (slot : ℕ) (v : F) :
    (SpongeEvent.outElem slot v).isPerm = false := rfl

theorem isPerm_addElem (slot : ℕ) (v : F) :
    (SpongeEvent.addElem slot v).isPerm = false := rfl

theorem outEvents_countP_perm (st : List F) (b n : ℕ) :
    (outEvents st b n).countP (fun e => e.isPerm) = 0 := by
  refine List.countP_eq_zero.mpr ?_
  intro a ha
  simp only [outEvents, List.mem_map, List.mem_range] at ha
  obtain ⟨k, hk, rfl⟩ := ha
  simp [SpongeEvent.isPerm]

theorem squeeze_internal_parameters (s₀ : PoseidonSponge F) (rs₀ n₀ : ℕ) :
    (squeeze_internal s₀ rs₀ n₀).2.1.parameters = s₀.parameters := by
  induction s₀, rs₀, n₀ using squeeze_internal.induct with
  | case1 s rs n h1 => rw [squeeze_internal, if_pos h1]
  | case2 s rs n h1 h2 => rw [squeeze_internal, if_neg h1, if_pos h2]
  | case3 s rs n h1 h2 num s1 ih =>
    rw [squeeze_internal, if_neg h1, if_neg h2]
    dsimp only
    have hpar : s1.parameters = s.parameters := by
      unfold s1
      split <;> rfl
    rw [hpar] at ih
    exact ih

/-- The squeeze loop never writes the state except through `permute`: the
final state is `permute` iterated as many times as the trace records. -/
theorem squeeze_internal_state_iterate (s₀ : PoseidonSponge F) (rs₀ n₀ : ℕ) :
    (squeeze_internal s₀ rs₀ n₀).2.1.state =
      (permute s₀.parameters)^[(squeeze_internal s₀ rs₀ n₀).2.2.countP
        (fun e => e.isPerm)] s₀.state := by
  induction s₀, rs₀, n₀ using squeeze_internal.induct with
  | case1 s rs n h1 =>
    rw [squeeze_internal, if_pos h1]
    simp [outEvents_countP_perm]
  | case2 s rs n h1 h2 =>
    rw [squeeze_internal, if_neg h1, if_pos h2]
    simp
  | case3 s rs n h1 h2 num s1 ih =>
    rw [squeeze_internal, if_neg h1, if_neg h2]
    dsimp only
    by_cases hne : n = s.parameters.rate
    · have hs1 : s1 = s := by unfold s1; simp [hne]
      rw [hs1] at ih
      simp only [List.countP_append, outEvents_countP_perm, hne, ne_eq,
        not_true_eq_false, if_neg, ite_self, if_false, List.countP_nil, zero_add]
      rw [hne] at ih
      exact ih
    · have hs1 : s1 = permuteSponge s := by unfold s1; simp [hne]
      rw [hs1] at ih
      simp only [ne_eq, hne, not_false_eq_true, if_pos, List.countP_append,
        outEvents_countP_perm, List.countP_cons, List.countP_nil, isPerm_perm,
        if_true, zero_add]
      rw [ih]
      have hpp : (permuteSponge s).parameters = s.parameters := rfl
      have hps : (permuteSponge s).state = permute s.parameters s.state := rfl
      rw [hpp, hps, ← Function.iterate_succ_apply, Nat.succ_eq_one_add]

/-- C7: the capacity slots `[0, capacity)` are written only by the
permutation.  (a) Every addition an absorb call performs targets a slot in
`[capacity, capacity + rate)`; (b) every output copy a squeeze call
performs reads a slot in `[capacity, capacity + rate)`; (c) a squeeze call
changes the state only by iterating `permute` — its final state is
`permute` applied as many times as the trace holds permutation events. -/
theorem capacity_region_only_permute (s : PoseidonSponge F) (elems : List F) (n : ℕ) :
    (∀ slot v, SpongeEvent.addElem slot v ∈ (absorb s elems).2 →
        s.parameters.capacity ≤ slot ∧
          slot < s.parameters.capacity + s.parameters.rate) ∧
    (∀ slot v, SpongeEvent.outElem slot v ∈ (squeeze_native_field_elements s n).2.2 →
        s.parameters.capacity ≤ slot ∧
          slot < s.parameters.capacity + s.parameters.rate) ∧
    (squeeze_native_field_elements s n).2.1.state =
      (permute s.parameters)^[(squeeze_native_field_elements s n).2.2.countP
        (fun e => e.isPerm)] s.state := by
  refine ⟨?_, ?_, ?_⟩
  · intro slot v h
    unfold absorb at h
    by_cases he : elems.isEmpty
    · rw [if_pos he] at h
      simp at h
    · rw [if_neg he] at h
      cases hm : s.mode with
      | absorbing i =>
        rw [hm] at h
        dsimp only at h
        by_cases hi : i = s.parameters.rate
        · rw [if_pos hi] at h
          dsimp only at h
          rcases List.mem_cons.mp h with h | h
          · exact absurd h (by simp)
          · exact absorb_internal_adds_in_rate (permuteSponge s) 0 elems slot v h
        · rw [if_neg hi] at h
          exact absorb_internal_adds_in_rate s i elems slot v h
      | squeezing j =>
        rw [hm] at h
        dsimp only at h
        rcases List.mem_cons.mp h with h | h
        · exact absurd h (by simp)
        · exact absorb_internal_adds_in_rate (permuteSponge s) 0 elems slot v h
  · intro slot v h
    unfold squeeze_native_field_elements at h
    cases hm : s.mode with
    | absorbing i =>
      rw [hm] at h
      dsimp only at h
      rcases List.mem_cons.mp h with h | h
      · exact absurd h (by simp)
      · exact squeeze_internal_outs_in_rate (permuteSponge s) 0 n slot v h
    | squeezing j =>
      rw [hm] at h
      dsimp only at h
      by_cases hj : j = s.parameters.rate
      · rw [if_pos hj] at h
        dsimp only at h
        rcases List.mem_cons.mp h with h | h
        · exact absurd h (by simp)
        · exact squeeze_internal_outs_in_rate (permuteSponge s) 0 n slot v h
      · rw [if_neg hj] at h
        exact squeeze_internal_outs_in_rate s j n slot v h
  · unfold squeeze_native_field_elements
    cases hm : s.mode with
    | absorbing i =>
      dsimp only
      rw [squeeze_internal_state_iterate (permuteSponge s) 0 n]
      simp only [List.countP_cons, isPerm_perm, if_true]
      have hpp : (permuteSponge s).parameters = s.parameters := rfl
      have hps : (permuteSponge s).state = permute s.parameters s.state := rfl
      rw [hpp, hps, ← Function.iterate_succ_apply]
    | squeezing j =>
      dsimp only
      by_cases hj : j = s.parameters.rate
      · rw [if_pos hj]
        dsimp only
        rw [squeeze_internal_state_iterate (permuteSponge s) 0 n]
        simp only [List.countP_cons, isPerm_perm, if_true]
        have hpp : (permuteSponge s).parameters = s.parameters := rfl
        have hps : (permuteSponge s).state = permute s.parameters s.state := rfl
        rw [hpp, hps, ← Function.iterate_succ_apply]
      · rw [if_neg hj]
        exact squeeze_internal_state_iterate s j n

set_option maxRecDepth 2000 in
/-- Witness for C7: absorbing `[1, 2, 3]` into `intSponge` records the
addition of `1` at slot `1`, which the theorem places inside the rate
region `[capacity, capacity + rate) = [1, 3)`. -/
theorem capacity_region_only_permute_witness :
    intSponge.parameters.capacity ≤ 1 ∧
      1 < intSponge.parameters.capacity + intSponge.parameters.rate :=
  (capacity_region_only_permute intSponge [1, 2, 3] 0).1 1 1 (by
    rw [absorb]
    simp only [intSponge, zeroRoundParams]
    norm_num
    rw [absorb_internal]
    norm_num [addEvents, addChunk, listAddAt])

theorem addChunk_append (st : List F) (base : ℕ) (a b : List F) :
    addChunk st base (a ++ b) = addChunk (addChunk st base a) (base + a.length) b := by
  induction a generalizing st base with
  | nil => simp [addChunk]
  | cons e t ih =>
    simp only [List.cons_append, addChunk, List.append_eq]
    rw [ih]
    rw [show base + 1 + t.length = base + (e :: t).length from by
      simp [List.length_cons]; omega]

/-- `absorb_internal` never reads the incoming mode (it only overwrites
it), as long as the loop cannot hit the divergent corner. -/
theorem absorb_internal_mode_irrelevant (p : PoseidonParameters F) :
    ∀ (N : ℕ) (elems st : List F) (m m' : DuplexSpongeMode) (rs : ℕ),
      elems.length ≤ N → rs < p.rate →
      absorb_internal ⟨p, st, m⟩ rs elems = absorb_internal ⟨p, st, m'⟩ rs elems := by
  intro N
  induction N with
  | zero =>
    intro elems st m m' rs hlen hrs
    have he : elems = [] := List.length_eq_zero.mp (by omega)
    subst he
    rw [absorb_internal, absorb_internal]
    dsimp only [List.length_nil]
    rw [if_pos (by omega), if_pos (by omega)]
  | succ N ih =>
    intro elems st m m' rs hlen hrs
    rw [absorb_internal, absorb_internal]
    dsimp only
    by_cases h1 : rs + elems.length ≤ p.rate
    · rw [if_pos h1, if_pos h1]
    · rw [if_neg h1, if_neg h1, if_neg (by omega), if_neg (by omega)]
      dsimp only [permuteSponge]
      have hrec := ih (elems.drop (p.rate - rs))
        (permute p (addChunk st (p.capacity + rs) (elems.take (p.rate - rs))))
        m m' 0 (by simp only [List.length_drop]; omega) (by omega)
      rw [hrec]

/-- One absorb step after an `absorb_internal` run that fitted in the rate
equals absorbing the concatenation (finish-case of the concatenation
law). -/
theorem absorb_internal_append_fit (p : PoseidonParameters F)
    (a b st : List F) (m : DuplexSpongeMode) (rs : ℕ)
    (hrs : rs < p.rate) (hb : b ≠ []) (h1 : rs + a.length ≤ p.rate) :
    (absorb (absorb_internal ⟨p, st, m⟩ rs a).1 b).1 =
      (absorb_internal ⟨p, st, m⟩ rs (a ++ b)).1 := by
  have hbe : b.isEmpty = false := by
    cases b with
    | nil => exact absurd rfl hb
    | cons x t => rfl
  have hblen : b.length ≠ 0 := by
    simpa [List.length_eq_zero] using hb
  conv_lhs => rw [absorb_internal]
  try dsimp only
  rw [if_pos h1]
  rw [absorb]
  simp only [hbe, Bool.false_eq_true, if_false]
  try dsimp only
  by_cases hj : rs + a.length = p.rate
  · rw [if_pos hj]
    conv_rhs => rw [absorb_internal]
    try dsimp only
    rw [if_neg (by simp only [List.length_append]; omega), if_neg (by omega)]
    dsimp only [permuteSponge]
    have hnum : p.rate - rs = a.length := by omega
    rw [hnum, List.take_left, List.drop_left]
    exact congrArg Prod.fst (absorb_internal_mode_irrelevant p b.length b
      (permute p (addChunk st (p.capacity + rs) a)) _ m 0 le_rfl (by omega))
  · rw [if_neg hj]
    conv_rhs => rw [absorb_internal]
    try dsimp only
    by_cases h2 : rs + (a ++ b).length ≤ p.rate
    · rw [if_pos h2]
      rw [absorb_internal]
      try dsimp only
      rw [if_pos (by simp only [List.length_append] at h2; omega)]
      try dsimp only
      rw [addChunk_append]
      simp only [List.length_append]
      rw [show p.capacity + rs + a.length = p.capacity + (rs + a.length) from by omega]
      rw [show rs + a.length + b.length = rs + (a.length + b.length) from by omega]
    · rw [if_neg h2, if_neg (by omega)]
      rw [absorb_internal]
      try dsimp only
      rw [if_neg (by simp only [List.length_append] at h2; omega),
        if_neg (by omega)]
      dsimp only [permuteSponge]
      conv_rhs =>
        rw [List.take_append_eq_append_take, List.drop_append_eq_append_drop,
          List.take_of_length_le (show a.length ≤ p.rate - rs by omega),
          List.drop_of_length_le (show a.length ≤ p.rate - rs by omega),
          List.nil_append, addChunk_append]
      rw [show p.capacity + rs + a.length = p.capacity + (rs + a.length) from by omega]
      rw [show p.rate - rs - a.length = p.rate - (rs + a.length) from by omega]
      exact congrArg Prod.fst (absorb_internal_mode_irrelevant p
        (b.drop (p.rate - (rs + a.length))).length _
        (permute p (addChunk (addChunk st (p.capacity + rs) a)
          (p.capacity + (rs + a.length)) (b.take (p.rate - (rs + a.length)))))
        _ m 0 le_rfl (by omega))

/-- Continuing with `b` after an internal absorb run over `a` equals one
internal run over `a ++ b`. -/
theorem absorb_internal_append (p : PoseidonParameters F) :
    ∀ (N : ℕ) (a b st : List F) (m : DuplexSpongeMode) (rs : ℕ),
      a.length ≤ N → rs < p.rate → b ≠ [] →
      (absorb (absorb_internal ⟨p, st, m⟩ rs a).1 b).1 =
        (absorb_internal ⟨p, st, m⟩ rs (a ++ b)).1 := by
  intro N
  induction N with
  | zero =>
    intro a b st m rs hlen hrs hb
    exact absorb_internal_append_fit p a b st m rs hrs hb (by
      have : a.length = 0 := by omega
      omega)
  | succ N ih =>
    intro a b st m rs hlen hrs hb
    by_cases h1 : rs + a.length ≤ p.rate
    · exact absorb_internal_append_fit p a b st m rs hrs hb h1
    · conv_lhs => rw [absorb_internal]
      conv_rhs => rw [absorb_internal]
      try dsimp only
      rw [if_neg h1, if_neg (by omega),
        if_neg (by simp only [List.length_append]; omega), if_neg (by omega)]
      dsimp only [permuteSponge]
      conv_rhs =>
        rw [List.take_append_of_le_length (by omega),
          List.drop_append_of_le_length (by omega)]
      have hrec := ih (a.drop (p.rate - rs)) b
        (permute p (addChunk st (p.capacity + rs) (a.take (p.rate - rs))))
        m 0 (by simp only [List.length_drop]; omega) (by omega) hb
      exact hrec

/-- C4: absorbing `a` and then `b` (no squeeze in between) leaves the
sponge — parameters, state vector and mode — exactly as absorbing
`a ++ b` does, for every starting sponge whose mode index respects the
`idx ≤ rate` invariant (with `rate > 0`, since a positive-rate sponge is
the only kind on which the absorb loop terminates). -/
theorem absorb_concat (s : PoseidonSponge F) (a b : List F)
    (hrate : 0 < s.parameters.rate)
    (hmode : ∀ i, s.mode = .absorbing i → i ≤ s.parameters.rate) :
    (absorb (absorb s a).1 b).1 = (absorb s (a ++ b)).1 := by
  by_cases ha : a = []
  · subst ha
    have h0 : absorb s ([] : List F) = (s, []) := by simp [absorb]
    rw [h0, List.nil_append]
  · by_cases hb : b = []
    · subst hb
      have h0 : absorb (absorb s a).1 ([] : List F) = ((absorb s a).1, []) := by
        simp [absorb]
      rw [h0, List.append_nil]
    · obtain ⟨p, st, m⟩ := s
      have hr : 0 < p.rate := hrate
      have hae : a.isEmpty = false := by
        cases a with
        | nil => exact absurd rfl ha
        | cons x t => rfl
      have habe : (a ++ b).isEmpty = false := by
        cases a with
        | nil => exact absurd rfl ha
        | cons x t => rfl
      cases m with
      | absorbing i =>
        have hi : i ≤ p.rate := hmode i rfl
        have habs : ∀ (x : List F), x.isEmpty = false →
            absorb ⟨p, st, DuplexSpongeMode.absorbing i⟩ x =
              if i = p.rate then
                ((absorb_internal ⟨p, permute p st, DuplexSpongeMode.absorbing i⟩ 0 x).1,
                  SpongeEvent.perm ::
                    (absorb_internal ⟨p, permute p st,
                      DuplexSpongeMode.absorbing i⟩ 0 x).2)
              else absorb_internal ⟨p, st, DuplexSpongeMode.absorbing i⟩ i x := by
          intro x hx
          rw [absorb]
          simp only [hx, Bool.false_eq_true, if_false]
          rfl
        rw [habs a hae, habs (a ++ b) habe]
        by_cases hir : i = p.rate
        · rw [if_pos hir, if_pos hir]
          exact absorb_internal_append p a.length a b (permute p st)
            (DuplexSpongeMode.absorbing i) 0 le_rfl (by omega) hb
        · rw [if_neg hir, if_neg hir]
          exact absorb_internal_append p a.length a b st
            (DuplexSpongeMode.absorbing i) i le_rfl (by omega) hb
      | squeezing j =>
        have habs : ∀ (x : List F), x.isEmpty = false →
            absorb ⟨p, st, DuplexSpongeMode.squeezing j⟩ x =
              ((absorb_internal ⟨p, permute p st, DuplexSpongeMode.squeezing j⟩ 0 x).1,
                SpongeEvent.perm ::
                  (absorb_internal ⟨p, permute p st,
                    DuplexSpongeMode.squeezing j⟩ 0 x).2) := by
          intro x hx
          rw [absorb]
          simp only [hx, Bool.false_eq_true, if_false]
          rfl
        rw [habs a hae, habs (a ++ b) habe]
        exact absorb_internal_append p a.length a b (permute p st)
          (DuplexSpongeMode.squeezing j) 0 le_rfl (by omega) hb

/-- Witness for C4: `intSponge` with `a = [1, 2, 3]`, `b = [4, 5]`. -/
theorem absorb_concat_witness :
    0 < intSponge.parameters.rate ∧
    (∀ i, intSponge.mode = .absorbing i → i ≤ intSponge.parameters.rate) ∧
    (absorb (absorb intSponge [(1 : ℤ), 2, 3]).1 [(4 : ℤ), 5]).1 =
      (absorb intSponge ([(1 : ℤ), 2, 3] ++ [(4 : ℤ), 5])).1 :=
  ⟨by decide,
    by
      intro i h
      simp only [intSponge] at h
      injection h with h1
      omega,
    absorb_concat intSponge [(1 : ℤ), 2, 3] [(4 : ℤ), 5] (by decide) (by
      intro i h
      simp only [intSponge] at h
      injection h with h1
      omega)⟩

theorem ceil_div_scale (n u : ℕ) (hu : 0 < u) :
    (8 * n + 8 * u - 1) / (8 * u) = (n + u - 1) / u := by
  have key : ∀ m : ℕ, (8 * m + 7) / (8 * u) = m / u := by
    intro m
    conv_lhs => rw [show 8 * m + 7 = (8 * (m % u) + 7) + (8 * u) * (m / u) from by
      have h := Nat.div_add_mod m u
      have h2 : (8 * u) * (m / u) = 8 * (u * (m / u)) := by ring
      omega]
    rw [Nat.add_mul_div_left _ _ (by omega : 0 < 8 * u)]
    rw [Nat.div_eq_of_lt (by have := Nat.mod_lt m hu; omega)]
    omega
  rcases Nat.eq_zero_or_pos n with hn | hn
  · subst hn
    rw [Nat.div_eq_of_lt (by omega), Nat.div_eq_of_lt (by omega)]
  · have e1 : 8 * n + 8 * u - 1 = (8 * (n - 1) + 7) + 8 * u := by omega
    have e2 : n + u - 1 = (n - 1) + u := by omega
    rw [e1, e2, Nat.add_div_right _ (by omega : 0 < 8 * u), Nat.add_div_right _ hu,
      key (n - 1)]

theorem flatMap_take_of_length_eq {α β : Type} (f : α → List β) (k : ℕ)
    (hf : ∀ x, (f x).length = k) :
    ∀ (l : List α) (n : ℕ),
      (l.take n).flatMap f = (l.flatMap f).take (n * k) := by
  intro l
  induction l with
  | nil => intro n; simp
  | cons x t ih =>
    intro n
    cases n with
    | zero => simp
    | succ n =>
      simp only [List.take_succ_cons, List.flatMap_cons]
      rw [ih n, Nat.succ_mul, List.take_append_eq_append_take, hf x,
        List.take_of_length_le (show (f x).length ≤ n * k + k from by
          rw [hf x]; omega),
        show n * k + k - k = n * k from by omega]

theorem range_mul_flatMap {β : Type} (g : ℕ → β) (k : ℕ) :
    ∀ (u : ℕ), (List.range (u * k)).map g
      = (List.range u).flatMap fun j => (List.range k).map fun t => g (k * j + t) := by
  intro u
  induction u with
  | zero => simp
  | succ u ih =>
    rw [Nat.succ_mul, List.range_add, List.map_append, ih, List.range_succ,
      List.flatMap_append]
    simp only [List.flatMap_cons, List.flatMap_nil, List.append_nil, List.map_map]
    congr 1
    apply List.map_congr_left
    intro t _
    simp [Nat.mul_comm]

theorem bytesLE_flatMap_bits (m u : ℕ) :
    (bytesLE m u).flatMap (fun b => (List.range 8).map fun t => b.testBit t)
      = bitsLE m (8 * u) := by
  unfold bytesLE bitsLE
  rw [List.flatMap_map, show 8 * u = u * 8 from Nat.mul_comm 8 u,
    range_mul_flatMap (fun j => m.testBit j) 8 u]
  congr 1
  funext j
  apply List.map_congr_left
  intro t ht
  rw [List.mem_range] at ht
  rw [show (256 : ℕ) = 2 ^ 8 from by norm_num, ← pow_mul,
    Nat.testBit_mod_two_pow, ← Nat.shiftRight_eq_div_pow, Nat.testBit_shiftRight]
  simp [ht]

/-- C5 amended: `squeeze_bytes n` and `squeeze_bits (8·n)` agree bit for
bit (little-endian) whenever the field's capacity bit count is a positive
multiple of 8.  (`cap` and `toNat` stand for `F::Params::CAPACITY` and
`into_repr`.) -/
theorem squeeze_bytes_bits_agree (cap : ℕ) (toNat : F → ℕ) (s : PoseidonSponge F)
    (n : ℕ) (h8 : cap % 8 = 0) (hpos : 0 < cap) :
    bytesToBitsLE (squeeze_bytes cap toNat s n).1
      = (squeeze_bits cap toNat s (8 * n)).1 := by
  obtain ⟨u, hu⟩ : ∃ u, cap = 8 * u := ⟨cap / 8, by omega⟩
  subst hu
  have hupos : 0 < u := by omega
  simp only [squeeze_bytes, squeeze_bits]
  rw [show 8 * u / 8 = u from by omega, ceil_div_scale n u hupos]
  unfold bytesToBitsLE
  rw [flatMap_take_of_length_eq _ 8 (fun b => by simp)]
  rw [List.flatMap_assoc]
  rw [show (fun e => (bytesLE (toNat e) u).flatMap
        fun b => (List.range 8).map fun t => b.testBit t)
      = (fun e => bitsLE (toNat e) (8 * u)) from
    funext fun e => bytesLE_flatMap_bits (toNat e) u]
  rw [Nat.mul_comm n 8]

/-- Witness for C5's amended statement: `cap = 8` over `intSponge` with
`toNat` the absolute value, `n = 1`. -/
theorem squeeze_bytes_bits_agree_witness :
    (8 : ℕ) % 8 = 0 ∧ 0 < (8 : ℕ) ∧
    bytesToBitsLE (squeeze_bytes 8 Int.natAbs intSponge 1).1
      = (squeeze_bits 8 Int.natAbs intSponge (8 * 1)).1 :=
  ⟨by decide, by decide,
    squeeze_bytes_bits_agree 8 Int.natAbs intSponge 1 (by decide) (by decide)⟩

theorem zmod_squeeze_two :
    (squeeze_native_field_elements zmodSponge 2).1 = [(256 : ZMod 521), 0] := by
  simp only [zmodSponge, squeeze_native_field_elements]
  rw [squeeze_internal]
  norm_num [zeroRoundParams, permuteSponge, permute, readChunk]
  decide

theorem zmod_squeeze_bytes_val : (squeeze_bytes 9 ZMod.val zmodSponge 2).1 = [0, 0] := by
  simp only [squeeze_bytes]
  norm_num
  rw [zmod_squeeze_two]
  decide

theorem zmod_squeeze_bits_val : (squeeze_bits 9 ZMod.val zmodSponge 16).1 =
    [false, false, false, false, false, false, false, false,
     true, false, false, false, false, false, false, false] := by
  simp only [squeeze_bits]
  norm_num
  rw [zmod_squeeze_two]
  decide

/-- C5 counterexample: over the prime field `ZMod 521` (capacity 9 bits,
so `usable_bytes = 1` but `usable_bits = 9`), squeezing `n = 2` bytes and
`8·n = 16` bits from the identical sponge `zmodSponge` disagree at bit 8:
the byte stream's ninth bit comes from the second squeezed element (`0`),
the bit stream's ninth bit is bit 8 of the first element (`256`, so `1`). -/
theorem squeeze_bytes_bits_mismatch_cex :
    bytesToBitsLE (squeeze_bytes 9 ZMod.val zmodSponge 2).1
      ≠ (squeeze_bits 9 ZMod.val zmodSponge 16).1 := by
  rw [zmod_squeeze_bytes_val, zmod_squeeze_bits_val]
  decide

end ProofsSponge
